import Mathlib

/-
Verification of the Quine-McCluskey boolean minimizer
(src/quine_mccluskey.py, class QuineMcCluskey).

Terms are modelled as lists of characters over the alphabet 0, 1, dash,
mirroring the Python strings.  Python sets become Finsets; the two
while-loops of simplify are written with explicit fuel, and every claim
that depends on them is proved together with the fact that the fuel
suffices (the loop genuinely reaches its exit condition).  Python set
iteration order is unspecified; where the source iterates a set (the
call to max in step 5 and the final sorted), the embedding fixes the
lexicographic order on terms.
-/

namespace QM

abbrev Term := List Char

/-- Binary digits, most significant first, with structural fuel so that
the kernel can evaluate it; any fuel above the argument gives the same
answer. -/
def natToBinAux : Nat → Nat → List Char
  | 0, _ => []
  | fuel + 1, n =>
    if n < 2 then [if n = 1 then '1' else '0']
    else natToBinAux fuel (n / 2) ++ [if n % 2 = 1 then '1' else '0']

/-- Binary digits of a natural number, most significant first, as produced
by Python bin(n) with the 0b stripped; natToBin 0 is the single digit 0. -/
def natToBin (n : Nat) : List Char :=
  natToBinAux (n + 1) n

/-- Python str.zfill: pad on the left with character 0 up to width w
(never truncates). -/
def zfill (w : Nat) (l : List Char) : List Char :=
  List.replicate (w - l.length) '0' ++ l

/-- The binary encoding of one index, padded to num_variables, as in
minterms_to_binary. -/
def toBinary (w n : Nat) : Term :=
  zfill w (natToBin n)

/-- QuineMcCluskey.minterms_to_binary. -/
def minterms_to_binary (w : Nat) (terms : List Nat) : List Term :=
  terms.map (toBinary w)

/-- Number of positions where two terms hold different characters
(the sum computed inside differs_by_one_bit; the source only compares
terms of equal length). -/
def diffCount (t1 t2 : Term) : Nat :=
  ((t1.zip t2).filter (fun p => p.1 ≠ p.2)).length

/-- QuineMcCluskey.differs_by_one_bit. -/
def differs_by_one_bit (t1 t2 : Term) : Prop :=
  diffCount t1 t2 = 1

instance (t1 t2 : Term) : Decidable (differs_by_one_bit t1 t2) := by
  unfold differs_by_one_bit; infer_instance

/-- QuineMcCluskey.combine_binary_terms. -/
def combine_binary_terms (t1 t2 : Term) : Term :=
  List.zipWith (fun a b => if a = b then a else '-') t1 t2

/-- QuineMcCluskey.covers: wildcard-aware matching of a minterm by an
implicant (the source only applies it to terms of equal length). -/
def covers (implicant minterm : Term) : Prop :=
  ∀ p ∈ implicant.zip minterm, p.1 = '-' ∨ p.1 = p.2

instance (i m : Term) : Decidable (covers i m) := by
  unfold covers; infer_instance

/-- The set of merge results of one round of step 2 of simplify: combined
terms of all ordered pairs of distinct terms differing in exactly one
position. -/
def combinedSet (terms : Finset Term) : Finset Term :=
  ((terms ×ˢ terms).filter
    (fun p => p.1 ≠ p.2 ∧ differs_by_one_bit p.1 p.2)).image
    (fun p => combine_binary_terms p.1 p.2)

/-- Membership in the used set of one round: a term is marked used exactly
when it has a merge partner (diffCount is symmetric, so first and second
components of successful pairs give the same set). -/
def usedPred (terms : Finset Term) (t : Term) : Prop :=
  ∃ t' ∈ terms, t ≠ t' ∧ differs_by_one_bit t t'

instance (terms : Finset Term) (t : Term) : Decidable (usedPred terms t) := by
  unfold usedPred; infer_instance

/-- The terms of one round not marked used: they become prime implicants. -/
def unusedSet (terms : Finset Term) : Finset Term :=
  terms.filter (fun t => ¬ usedPred terms t)

/-- The while-loop of step 2 of simplify, with explicit fuel: each
iteration moves the unused terms into the prime-implicant accumulator and
replaces the working set by the merge results, until the working set is
empty. -/
def primesAux : Nat → Finset Term → Finset Term → Finset Term
  | 0, _, primes => primes
  | fuel + 1, terms, primes =>
    if terms = ∅ then primes
    else primesAux fuel (combinedSet terms) (primes ∪ unusedSet terms)

/-- The initial working set: binary encodings of all_terms = minterms ++
dont_cares, deduplicated by the set constructor. -/
def initialTerms (w : Nat) (all_terms : List Nat) : Finset Term :=
  (minterms_to_binary w all_terms).toFinset

/-- The accumulated prime implicant set of step 2.  Fuel w + 2 is enough:
for in-range inputs the working set of round k holds only terms with k
wildcards, so it is empty after at most w + 1 rounds (proved below). -/
def prime_implicants (w : Nat) (M D : List Nat) : Finset Term :=
  primesAux (w + 2) (initialTerms w (M ++ D)) ∅

/-- The coverage-table entry of one minterm: the prime implicants that
cover it (step 3 of simplify). -/
def coverers (primes : Finset Term) (m : Term) : Finset Term :=
  primes.filter (fun p => covers p m)

/-- Step 4 of simplify: the essential prime implicants, those that are the
sole coverer of some minterm of the table. -/
def essentialsSet (primes : Finset Term) (mintermBins : List Term) : Finset Term :=
  primes.filter (fun p => ∃ m ∈ mintermBins, coverers primes m = {p})

/-- The coverage table after step 4 removed every minterm covered by an
essential prime implicant: only its keys matter from here on. -/
def remainingAfterEssentials (primes : Finset Term) (mintermBins : List Term) :
    Finset Term :=
  mintermBins.toFinset.filter
    (fun m => ¬ ∃ p ∈ essentialsSet primes mintermBins, covers p m)

/-- The elements of a set of terms listed in ascending lexicographic
order, computed by insertion sort (well defined on the quotient because a
sorted permutation is unique). -/
def sortFinset (s : Finset Term) : List Term :=
  Quotient.liftOn s.val (fun l => List.insertionSort (fun a b => a ≤ b) l)
    (fun l₁ l₂ h =>
      List.eq_of_perm_of_sorted
        (((List.perm_insertionSort _ l₁).trans h).trans
          (List.perm_insertionSort _ l₂).symm)
        (List.sorted_insertionSort _ l₁) (List.sorted_insertionSort _ l₂))

theorem mem_sortFinset {s : Finset Term} {t : Term} :
    t ∈ sortFinset s ↔ t ∈ s := by
  rcases s with ⟨m, hm⟩
  induction m using Quotient.inductionOn with
  | h l =>
    simp only [sortFinset, Quotient.liftOn_mk, List.mem_insertionSort]
    rfl

/-- The key of the max call of step 5: how many remaining minterms an
implicant covers. -/
def score (remaining : Finset Term) (imp : Term) : Nat :=
  (remaining.filter (fun m => covers imp m)).card

/-- max(prime_implicants, key = score): the first implicant attaining the
maximal score, iterating the set in lexicographic order (Python iterates
in unspecified hash order; max keeps the earliest maximum). -/
def pickBest (primes remaining : Finset Term) : Term :=
  match sortFinset primes with
  | [] => []
  | h :: t => t.foldl (fun acc x =>
      if score remaining acc < score remaining x then x else acc) h

/-- The while-loop of step 5 of simplify with explicit fuel: pick the
best-scoring implicant, add it to the chosen set, delete the minterms it
covers, until the table is empty. -/
def greedyAux (primes : Finset Term) : Nat → Finset Term → Finset Term → Finset Term
  | 0, chosen, _ => chosen
  | fuel + 1, chosen, remaining =>
    if remaining = ∅ then chosen
    else
      greedyAux primes fuel (insert (pickBest primes remaining) chosen)
        (remaining.filter (fun m => ¬ covers (pickBest primes remaining) m))

/-- QuineMcCluskey.simplify: the final simplified_terms list.  Fuel for
the selection loop is one more than the table size; each productive
iteration removes at least one minterm (proved below for in-range
inputs). -/
def simplify (w : Nat) (M D : List Nat) : List Term :=
  let primes := prime_implicants w M D
  let mintermBins := minterms_to_binary w M
  let essentials := essentialsSet primes mintermBins
  let remaining := remainingAfterEssentials primes mintermBins
  sortFinset (greedyAux primes (remaining.card + 1) essentials remaining)

/-! ### Properties of the binary encoding -/

/-- Decode a binary digit string back to its value, most significant
digit first. -/
def binToNat (l : List Char) : Nat :=
  l.foldl (fun a c => 2 * a + (if c = '1' then 1 else 0)) 0

theorem binToNat_append_singleton (l : List Char) (c : Char) :
    binToNat (l ++ [c]) = 2 * binToNat l + (if c = '1' then 1 else 0) := by
  simp [binToNat, List.foldl_append]

theorem binToNat_natToBinAux :
    ∀ fuel n, n < fuel → binToNat (natToBinAux fuel n) = n := by
  intro fuel
  induction fuel with
  | zero => intro n hn; omega
  | succ fuel ih =>
    intro n hn
    by_cases h2 : n < 2
    · simp only [natToBinAux, if_pos h2, binToNat, List.foldl_cons, List.foldl_nil]
      interval_cases n <;> simp
    · have hrec : natToBinAux (fuel + 1) n =
          natToBinAux fuel (n / 2) ++ [if n % 2 = 1 then '1' else '0'] := by
        simp [natToBinAux, h2]
      rw [hrec, binToNat_append_singleton, ih (n / 2) (by omega)]
      rcases Nat.mod_two_eq_zero_or_one n with h | h <;> simp [h] <;> omega

theorem binToNat_natToBin (n : Nat) : binToNat (natToBin n) = n :=
  binToNat_natToBinAux (n + 1) n (Nat.lt_succ_self n)

theorem binToNat_zfill (w : Nat) (l : List Char) :
    binToNat (zfill w l) = binToNat l := by
  unfold zfill binToNat
  rw [List.foldl_append]
  have : ∀ k, List.foldl (fun a c => 2 * a + (if c = '1' then 1 else 0)) 0
      (List.replicate k '0') = 0 := by
    intro k
    induction k with
    | zero => rfl
    | succ k ih => simpa [List.replicate_succ] using ih
  rw [this]

theorem binToNat_toBinary (w n : Nat) : binToNat (toBinary w n) = n := by
  rw [toBinary, binToNat_zfill, binToNat_natToBin]

theorem toBinary_injective {w m n : Nat} (h : toBinary w m = toBinary w n) :
    m = n := by
  have := binToNat_toBinary w m
  rw [h, binToNat_toBinary] at this
  omega

theorem natToBinAux_chars :
    ∀ fuel n, ∀ c ∈ natToBinAux fuel n, c = '0' ∨ c = '1' := by
  intro fuel
  induction fuel with
  | zero => intro n c hc; simp [natToBinAux] at hc
  | succ fuel ih =>
    intro n c hc
    by_cases h2 : n < 2
    · simp only [natToBinAux, if_pos h2, List.mem_singleton] at hc
      subst hc
      split <;> simp
    · simp only [natToBinAux, if_neg h2, List.mem_append, List.mem_singleton] at hc
      rcases hc with hc | hc
      · exact ih _ c hc
      · subst hc; split <;> simp

theorem natToBin_chars (n : Nat) : ∀ c ∈ natToBin n, c = '0' ∨ c = '1' :=
  natToBinAux_chars (n + 1) n

theorem toBinary_chars (w n : Nat) : ∀ c ∈ toBinary w n, c = '0' ∨ c = '1' := by
  intro c hc
  rcases List.mem_append.mp hc with hc | hc
  · left; exact List.eq_of_mem_replicate hc
  · exact natToBin_chars n c hc

theorem natToBinAux_ne_nil {fuel n : Nat} (h : n < fuel) :
    natToBinAux fuel n ≠ [] := by
  cases fuel with
  | zero => omega
  | succ fuel =>
    by_cases h2 : n < 2 <;> simp [natToBinAux, h2]

theorem natToBinAux_length_le :
    ∀ fuel n w, n < fuel → n < 2 ^ w → 1 ≤ w →
      (natToBinAux fuel n).length ≤ w := by
  intro fuel
  induction fuel with
  | zero => intro n w hn; omega
  | succ fuel ih =>
    intro n w hn hw h1
    by_cases h2 : n < 2
    · simp only [natToBinAux, if_pos h2, List.length_singleton]
      omega
    · have hwge : 2 ≤ w := by
        by_contra hlt
        have : w = 1 := by omega
        subst this
        simp at hw
        omega
      have hdiv : n / 2 < 2 ^ (w - 1) := by
        have hpow : 2 ^ w = 2 ^ (w - 1) * 2 := by
          rw [← pow_succ]
          congr 1
          omega
        rw [Nat.div_lt_iff_lt_mul (by norm_num)]
        omega
      simp only [natToBinAux, if_neg h2, List.length_append,
        List.length_singleton]
      have := ih (n / 2) (w - 1) (by omega) hdiv (by omega)
      omega

theorem toBinary_length {w n : Nat} (h : n < 2 ^ w) :
    (toBinary w n).length = max w 1 := by
  unfold toBinary zfill
  rw [List.length_append, List.length_replicate]
  have hpos : 1 ≤ (natToBin n).length :=
    List.length_pos.mpr (natToBinAux_ne_nil (Nat.lt_succ_self n))
  by_cases hw : 1 ≤ w
  · have hle : (natToBin n).length ≤ w :=
      natToBinAux_length_le (n + 1) n w (Nat.lt_succ_self n) h hw
    omega
  · have : w = 0 := by omega
    subst this
    simp only [pow_zero, Nat.lt_one_iff] at h
    subst h
    simp [natToBin, natToBinAux]

theorem toBinary_length_of_pos {w n : Nat} (h : n < 2 ^ w) (hw : 1 ≤ w) :
    (toBinary w n).length = w := by
  rw [toBinary_length h]
  omega

/-! ### Properties of matching and merging -/

/-- The characters a term may hold: binary digits and the wildcard. -/
def termChar (c : Char) : Prop :=
  c = '0' ∨ c = '1' ∨ c = '-'

theorem covers_nil_right (i : Term) : covers i [] := by
  intro p hp
  simp at hp

theorem covers_nil_left (m : Term) : covers [] m := by
  intro p hp
  simp at hp

theorem covers_cons {x y : Char} {a b : Term} :
    covers (x :: a) (y :: b) ↔ (x = '-' ∨ x = y) ∧ covers a b := by
  simp [covers, List.zip_cons_cons]

theorem covers_refl (t : Term) : covers t t := by
  induction t with
  | nil => exact covers_nil_left []
  | cons a t ih => exact covers_cons.mpr ⟨Or.inr rfl, ih⟩

theorem covers_trans :
    ∀ {a b c : Term}, a.length = b.length → b.length = c.length →
      covers a b → covers b c → covers a c := by
  intro a
  induction a with
  | nil => intro b c _ _ _ _; exact covers_nil_left c
  | cons x a ih =>
    intro b c hab hbc h1 h2
    cases b with
    | nil => simp at hab
    | cons y b =>
      cases c with
      | nil => simp at hbc
      | cons z c =>
        rcases covers_cons.mp h1 with ⟨hx, h1'⟩
        rcases covers_cons.mp h2 with ⟨hy, h2'⟩
        refine covers_cons.mpr ⟨?_, ih (by simpa using hab) (by simpa using hbc) h1' h2'⟩
        rcases hx with hx | hx
        · exact Or.inl hx
        · rcases hy with hy | hy
          · exact Or.inl (hx.trans hy)
          · exact Or.inr (hx.trans hy)

theorem combine_cons (a b : Char) (t1 t2 : Term) :
    combine_binary_terms (a :: t1) (b :: t2) =
      (if a = b then a else '-') :: combine_binary_terms t1 t2 :=
  rfl

theorem combine_self (t : Term) : combine_binary_terms t t = t := by
  induction t with
  | nil => rfl
  | cons a t ih => rw [combine_cons, if_pos rfl, ih]

theorem covers_combine_left :
    ∀ t1 t2 : Term, covers (combine_binary_terms t1 t2) t1 := by
  intro t1
  induction t1 with
  | nil => intro t2; exact covers_nil_right _
  | cons a t1 ih =>
    intro t2
    cases t2 with
    | nil => exact covers_nil_left _
    | cons b t2 =>
      rw [combine_cons]
      refine covers_cons.mpr ⟨?_, ih t2⟩
      by_cases hab : a = b <;> simp [hab]

theorem covers_combine_right :
    ∀ t1 t2 : Term, covers (combine_binary_terms t1 t2) t2 := by
  intro t1
  induction t1 with
  | nil => intro t2; exact covers_nil_left _
  | cons a t1 ih =>
    intro t2
    cases t2 with
    | nil => exact covers_nil_right _
    | cons b t2 =>
      rw [combine_cons]
      refine covers_cons.mpr ⟨?_, ih t2⟩
      by_cases hab : a = b <;> simp [hab]

theorem combine_length (t1 t2 : Term) :
    (combine_binary_terms t1 t2).length = min t1.length t2.length := by
  simp [combine_binary_terms]

theorem combine_chars {t1 t2 : Term}
    (h1 : ∀ c ∈ t1, termChar c) :
    ∀ c ∈ combine_binary_terms t1 t2, termChar c := by
  induction t1 generalizing t2 with
  | nil => intro c hc; simp [combine_binary_terms] at hc
  | cons a t1 ih =>
    intro c hc
    cases t2 with
    | nil => simp [combine_binary_terms] at hc
    | cons b t2 =>
      rw [combine_cons] at hc
      rcases List.mem_cons.mp hc with hc | hc
      · subst hc
        by_cases hab : a = b
        · simpa [hab] using h1 a (by simp)
        · simp [hab, termChar]
      · exact ih (fun c hc => h1 c (by simp [hc])) c hc

theorem diffCount_cons (a b : Char) (t1 t2 : Term) :
    diffCount (a :: t1) (b :: t2) =
      diffCount t1 t2 + (if a = b then 0 else 1) := by
  by_cases hab : a = b <;>
    simp [diffCount, List.zip_cons_cons, List.filter_cons, hab]

theorem diffCount_eq_zero :
    ∀ {t1 t2 : Term}, t1.length = t2.length → diffCount t1 t2 = 0 →
      t1 = t2 := by
  intro t1
  induction t1 with
  | nil =>
    intro t2 hlen _
    cases t2 with
    | nil => rfl
    | cons b t2 => simp at hlen
  | cons a t1 ih =>
    intro t2 hlen hd
    cases t2 with
    | nil => simp at hlen
    | cons b t2 =>
      rw [diffCount_cons] at hd
      by_cases hab : a = b
      · simp only [if_pos hab, Nat.add_zero] at hd
        rw [hab, ih (by simpa using hlen) hd]
      · simp [if_neg hab] at hd

theorem diffCount_comm : ∀ t1 t2 : Term, diffCount t1 t2 = diffCount t2 t1 := by
  intro t1
  induction t1 with
  | nil => intro t2; cases t2 <;> rfl
  | cons a t1 ih =>
    intro t2
    cases t2 with
    | nil => rfl
    | cons b t2 =>
      rw [diffCount_cons, diffCount_cons, ih]
      by_cases hab : a = b
      · simp [hab]
      · have hba : ¬ b = a := fun h => hab h.symm
        simp [hab, hba]

/-- The number of wildcard positions of a term. -/
def wcount (t : Term) : Nat :=
  (t.filter (fun c => c = '-')).length

theorem wcount_cons (a : Char) (t : Term) :
    wcount (a :: t) = wcount t + (if a = '-' then 1 else 0) := by
  by_cases ha : a = '-' <;> simp [wcount, List.filter_cons, ha]

theorem wcount_eq_zero {t : Term} (h : ∀ c ∈ t, c = '0' ∨ c = '1') :
    wcount t = 0 := by
  induction t with
  | nil => rfl
  | cons a t ih =>
    rw [wcount_cons]
    have ha : ¬ a = '-' := by
      rcases h a (by simp) with h' | h' <;> subst h' <;> decide
    rw [if_neg ha, ih (fun c hc => h c (by simp [hc]))]

theorem wcount_le_length (t : Term) : wcount t ≤ t.length :=
  List.length_filter_le _ t

theorem wcount_combine :
    ∀ {t1 t2 : Term}, t1.length = t2.length → diffCount t1 t2 = 1 →
      wcount t1 = wcount t2 →
      wcount (combine_binary_terms t1 t2) = wcount t1 + 1 := by
  intro t1
  induction t1 with
  | nil =>
    intro t2 hlen hd
    cases t2 with
    | nil => simp [diffCount] at hd
    | cons b t2 => simp at hlen
  | cons a t1 ih =>
    intro t2 hlen hd hcnt
    cases t2 with
    | nil => simp at hlen
    | cons b t2 =>
      rw [diffCount_cons] at hd
      by_cases hab : a = b
      · subst hab
        have hd' : diffCount t1 t2 = 1 := by simpa using hd
        have hcnt' : wcount t1 = wcount t2 := by
          rw [wcount_cons, wcount_cons] at hcnt; omega
        rw [combine_cons, if_pos rfl, wcount_cons, wcount_cons,
          ih (by simpa using hlen) hd' hcnt']
        omega
      · have hd' : diffCount t1 t2 = 0 := by simpa [hab] using hd
        have heq : t1 = t2 := diffCount_eq_zero (by simpa using hlen) hd'
        subst heq
        have ha : ¬ a = '-' := by
          rw [wcount_cons, wcount_cons] at hcnt
          intro h
          by_cases hb : b = '-'
          · exact hab (h.trans hb.symm)
          · rw [if_pos h, if_neg hb] at hcnt; omega
        rw [combine_cons, if_neg hab, combine_self, wcount_cons, wcount_cons,
          if_neg ha]
        simp

theorem covers_combine_elim :
    ∀ {t1 t2 b : Term}, t1.length = t2.length → diffCount t1 t2 = 1 →
      (∀ c ∈ t1, termChar c) → (∀ c ∈ t2, termChar c) →
      (∀ c ∈ b, c = '0' ∨ c = '1') →
      covers (combine_binary_terms t1 t2) b →
      covers t1 b ∨ covers t2 b := by
  intro t1
  induction t1 with
  | nil =>
    intro t2 b hlen hd
    cases t2 with
    | nil => simp [diffCount] at hd
    | cons y t2 => simp at hlen
  | cons x t1 ih =>
    intro t2 b hlen hd hc1 hc2 hcb hcov
    cases t2 with
    | nil => simp at hlen
    | cons y t2 =>
      cases b with
      | nil => exact Or.inl (covers_nil_right _)
      | cons c b =>
        rw [diffCount_cons] at hd
        rw [combine_cons] at hcov
        rcases covers_cons.mp hcov with ⟨hhead, htail⟩
        by_cases hxy : x = y
        · have hd' : diffCount t1 t2 = 1 := by simpa [hxy] using hd
          have hrec := ih (by simpa using hlen) hd'
            (fun c hc => hc1 c (by simp [hc]))
            (fun c hc => hc2 c (by simp [hc]))
            (fun c hc => hcb c (by simp [hc])) htail
          have hhx : x = '-' ∨ x = c := by simpa [hxy] using hhead
          rcases hrec with h | h
          · exact Or.inl (covers_cons.mpr ⟨hhx, h⟩)
          · exact Or.inr (covers_cons.mpr ⟨hxy ▸ hhx, h⟩)
        · have hd' : diffCount t1 t2 = 0 := by simpa [hxy] using hd
          have heq : t1 = t2 := diffCount_eq_zero (by simpa using hlen) hd'
          have htail' : covers t1 b := by
            rw [heq] at htail ⊢
            rwa [combine_self] at htail
          by_cases hx : x = '-'
          · exact Or.inl (covers_cons.mpr ⟨Or.inl hx, htail'⟩)
          · by_cases hy : y = '-'
            · exact Or.inr (covers_cons.mpr ⟨Or.inl hy, heq ▸ htail'⟩)
            · have hcx : c = x ∨ c = y := by
                rcases hc1 x (by simp) with h1 | h1 | h1
                · rcases hc2 y (by simp) with h2 | h2 | h2
                  · exact absurd (h1.trans h2.symm) hxy
                  · rcases hcb c (by simp) with h3 | h3
                    · exact Or.inl (h3.trans h1.symm)
                    · exact Or.inr (h3.trans h2.symm)
                  · exact absurd h2 hy
                · rcases hc2 y (by simp) with h2 | h2 | h2
                  · rcases hcb c (by simp) with h3 | h3
                    · exact Or.inr (h3.trans h2.symm)
                    · exact Or.inl (h3.trans h1.symm)
                  · exact absurd (h1.trans h2.symm) hxy
                  · exact absurd h2 hy
                · exact absurd h1 hx
              rcases hcx with h | h
              · exact Or.inl (covers_cons.mpr ⟨Or.inr h.symm, htail'⟩)
              · exact Or.inr (covers_cons.mpr ⟨Or.inr h.symm, heq ▸ htail'⟩)
/-! ### The merge loop -/

theorem mem_combinedSet {terms : Finset Term} {c : Term} :
    c ∈ combinedSet terms ↔
      ∃ t1 ∈ terms, ∃ t2 ∈ terms, t1 ≠ t2 ∧ differs_by_one_bit t1 t2 ∧
        c = combine_binary_terms t1 t2 := by
  unfold combinedSet
  constructor
  · intro h
    rcases Finset.mem_image.mp h with ⟨p, hp, hpc⟩
    rcases Finset.mem_filter.mp hp with ⟨hprod, hne, hd⟩
    rcases Finset.mem_product.mp hprod with ⟨h1, h2⟩
    exact ⟨p.1, h1, p.2, h2, hne, hd, hpc.symm⟩
  · rintro ⟨t1, h1, t2, h2, hne, hd, rfl⟩
    exact Finset.mem_image.mpr ⟨(t1, t2),
      Finset.mem_filter.mpr ⟨Finset.mem_product.mpr ⟨h1, h2⟩, hne, hd⟩, rfl⟩

theorem combinedSet_of_subsingleton {terms : Finset Term}
    (h : ∀ t1 ∈ terms, ∀ t2 ∈ terms, t1 = t2) : combinedSet terms = ∅ := by
  rw [Finset.eq_empty_iff_forall_not_mem]
  intro c hc
  rcases mem_combinedSet.mp hc with ⟨t1, h1, t2, h2, hne, _, _⟩
  exact hne (h t1 h1 t2 h2)

theorem primesAux_mono :
    ∀ fuel (terms primes : Finset Term), primes ⊆ primesAux fuel terms primes := by
  intro fuel
  induction fuel with
  | zero => intro terms primes; rw [primesAux]
  | succ fuel ih =>
    intro terms primes
    rw [primesAux]
    by_cases he : terms = ∅
    · rw [if_pos he]
    · rw [if_neg he]
      exact Finset.Subset.trans Finset.subset_union_left (ih _ _)

theorem primesAux_inv (P : Term → Prop)
    (hstep : ∀ t1 t2, P t1 → P t2 → t1 ≠ t2 → differs_by_one_bit t1 t2 →
      P (combine_binary_terms t1 t2)) :
    ∀ fuel (terms primes : Finset Term),
      (∀ t ∈ terms, P t) → (∀ p ∈ primes, P p) →
      ∀ p ∈ primesAux fuel terms primes, P p := by
  intro fuel
  induction fuel with
  | zero =>
    intro terms primes _ hp p hmem
    rw [primesAux] at hmem
    exact hp p hmem
  | succ fuel ih =>
    intro terms primes ht hp p hmem
    rw [primesAux] at hmem
    by_cases he : terms = ∅
    · rw [if_pos he] at hmem; exact hp p hmem
    · rw [if_neg he] at hmem
      refine ih _ _ ?_ ?_ p hmem
      · intro c hc
        rcases mem_combinedSet.mp hc with ⟨t1, h1, t2, h2, hne, hd, rfl⟩
        exact hstep t1 t2 (ht t1 h1) (ht t2 h2) hne hd
      · intro q hq
        rcases Finset.mem_union.mp hq with hq | hq
        · exact hp q hq
        · exact ht q (Finset.mem_filter.mp hq).1

theorem primesAux_covers (L : Nat) :
    ∀ fuel (terms primes : Finset Term),
      combinedSet^[fuel] terms = ∅ →
      (∀ t ∈ terms, t.length = L) →
      ∀ t ∈ terms, ∃ p ∈ primesAux (fuel + 1) terms primes,
        covers p t ∧ p.length = L := by
  intro fuel
  induction fuel with
  | zero =>
    intro terms primes hdone _ t ht
    simp only [Function.iterate_zero, id_eq] at hdone
    subst hdone
    simp at ht
  | succ fuel ih =>
    intro terms primes hdone hlen t ht
    have hne : terms ≠ ∅ := by
      intro h; subst h; simp at ht
    have hstep : primesAux (fuel + 1 + 1) terms primes =
        primesAux (fuel + 1) (combinedSet terms) (primes ∪ unusedSet terms) := by
      rw [primesAux, if_neg hne]
    rw [hstep]
    by_cases hu : usedPred terms t
    · obtain ⟨t', ht', hne', hd⟩ := hu
      have hc : combine_binary_terms t t' ∈ combinedSet terms :=
        mem_combinedSet.mpr ⟨t, ht, t', ht', hne', hd, rfl⟩
      have hlenc : ∀ u ∈ combinedSet terms, u.length = L := by
        intro u hu'
        rcases mem_combinedSet.mp hu' with ⟨u1, h1, u2, h2, _, _, rfl⟩
        rw [combine_length, hlen u1 h1, hlen u2 h2, Nat.min_self]
      have hdone' : combinedSet^[fuel] (combinedSet terms) = ∅ := by
        rw [← Function.iterate_succ_apply]
        exact hdone
      obtain ⟨p, hp, hcov, hplen⟩ :=
        ih (combinedSet terms) (primes ∪ unusedSet terms) hdone' hlenc
          (combine_binary_terms t t') hc
      refine ⟨p, hp, ?_, hplen⟩
      exact covers_trans
        (by rw [hplen, hlenc _ hc])
        (by rw [hlenc _ hc, hlen t ht])
        hcov (covers_combine_left t t')
    · have hmem : t ∈ unusedSet terms := Finset.mem_filter.mpr ⟨ht, hu⟩
      exact ⟨t, primesAux_mono _ _ _ (Finset.mem_union_right _ hmem),
        covers_refl t, hlen t ht⟩

theorem combinedSet_wcount {terms : Finset Term} {L k : Nat}
    (h : ∀ t ∈ terms, t.length = L ∧ wcount t = k) :
    ∀ t ∈ combinedSet terms, t.length = L ∧ wcount t = k + 1 := by
  intro c hc
  rcases mem_combinedSet.mp hc with ⟨t1, h1, t2, h2, _, hd, rfl⟩
  obtain ⟨hl1, hw1⟩ := h t1 h1
  obtain ⟨hl2, hw2⟩ := h t2 h2
  constructor
  · rw [combine_length, hl1, hl2, Nat.min_self]
  · rw [wcount_combine (hl1.trans hl2.symm) hd (hw1.trans hw2.symm), hw1]

theorem iterate_combinedSet_wcount (L : Nat) :
    ∀ (k : Nat) (terms : Finset Term) (j : Nat),
      (∀ t ∈ terms, t.length = L ∧ wcount t = j) →
      ∀ t ∈ combinedSet^[k] terms, t.length = L ∧ wcount t = j + k := by
  intro k
  induction k with
  | zero => intro terms j h; simpa using h
  | succ k ih =>
    intro terms j h t ht
    rw [Function.iterate_succ_apply] at ht
    have hthis := ih (combinedSet terms) (j + 1) (combinedSet_wcount h) t ht
    refine ⟨hthis.1, ?_⟩
    have := hthis.2
    omega


theorem iterate_combinedSet_empty {L : Nat} {terms : Finset Term}
    (h : ∀ t ∈ terms, t.length = L ∧ wcount t = 0) :
    combinedSet^[L + 1] terms = ∅ := by
  rw [Finset.eq_empty_iff_forall_not_mem]
  intro t ht
  obtain ⟨hl, hw⟩ := iterate_combinedSet_wcount L (L + 1) terms 0 h t ht
  have := wcount_le_length t
  omega

theorem mem_initialTerms {w : Nat} {all : List Nat} {t : Term} :
    t ∈ initialTerms w all ↔ ∃ n ∈ all, toBinary w n = t := by
  simp [initialTerms, minterms_to_binary]

theorem initialTerms_inv {w : Nat} {all : List Nat}
    (h : ∀ n ∈ all, n < 2 ^ w) (hw : 1 ≤ w) :
    ∀ t ∈ initialTerms w all, t.length = w ∧ wcount t = 0 := by
  intro t ht
  rcases mem_initialTerms.mp ht with ⟨n, hn, rfl⟩
  exact ⟨toBinary_length_of_pos (h n hn) hw,
    wcount_eq_zero (toBinary_chars w n)⟩

/-- Termination of the merge loop: for in-range inputs the working set is
empty after at most w + 1 replacement rounds. -/
theorem merge_loop_terminates {w : Nat} {all : List Nat}
    (h : ∀ n ∈ all, n < 2 ^ w) :
    combinedSet^[w + 1] (initialTerms w all) = ∅ := by
  by_cases hw : 1 ≤ w
  · exact iterate_combinedSet_empty (initialTerms_inv h hw)
  · have hw0 : w = 0 := by omega
    subst hw0
    have hsub : combinedSet (initialTerms 0 all) = ∅ := by
      refine combinedSet_of_subsingleton ?_
      intro t1 h1 t2 h2
      rcases mem_initialTerms.mp h1 with ⟨n1, hn1, rfl⟩
      rcases mem_initialTerms.mp h2 with ⟨n2, hn2, rfl⟩
      have e1 : n1 = 0 := by have := h n1 hn1; simpa using this
      have e2 : n2 = 0 := by have := h n2 hn2; simpa using this
      rw [e1, e2]
    simpa using hsub

/-! ### The greedy selection loop -/

theorem foldl_best_mem (remaining : Finset Term) :
    ∀ (t : List Term) (h : Term),
      t.foldl (fun acc x =>
        if score remaining acc < score remaining x then x else acc) h ∈ h :: t := by
  intro t
  induction t with
  | nil => intro h; simp
  | cons a t ih =>
    intro h
    simp only [List.foldl_cons]
    by_cases hc : score remaining h < score remaining a
    · rw [if_pos hc]
      rcases List.mem_cons.mp (ih a) with h' | h'
      · simp [h']
      · simp [h']
    · rw [if_neg hc]
      rcases List.mem_cons.mp (ih h) with h' | h'
      · simp [h']
      · simp [h']

theorem foldl_best_le (remaining : Finset Term) :
    ∀ (t : List Term) (h x : Term), x ∈ h :: t →
      score remaining x ≤ score remaining
        (t.foldl (fun acc y =>
          if score remaining acc < score remaining y then y else acc) h) := by
  intro t
  induction t with
  | nil =>
    intro h x hx
    rcases List.mem_cons.mp hx with h' | h'
    · subst h'; simp
    · simp at h'
  | cons a t ih =>
    intro h x hx
    simp only [List.foldl_cons]
    have hh : score remaining h ≤
        score remaining (if score remaining h < score remaining a then a else h) := by
      by_cases hc : score remaining h < score remaining a
      · rw [if_pos hc]; omega
      · rw [if_neg hc]
    have ha : score remaining a ≤
        score remaining (if score remaining h < score remaining a then a else h) := by
      by_cases hc : score remaining h < score remaining a
      · rw [if_pos hc]
      · rw [if_neg hc]; omega
    rcases List.mem_cons.mp hx with h' | h'
    · subst h'
      exact le_trans hh (ih _ _ (List.mem_cons_self _ _))
    · rcases List.mem_cons.mp h' with h'' | h''
      · subst h''
        exact le_trans ha (ih _ _ (List.mem_cons_self _ _))
      · exact ih _ x (List.mem_cons_of_mem _ h'')

theorem pickBest_mem {primes : Finset Term} (remaining : Finset Term)
    (h : primes.Nonempty) : pickBest primes remaining ∈ primes := by
  obtain ⟨q, hq⟩ := h
  rw [pickBest]
  split
  · next heq =>
    rw [← mem_sortFinset (s := primes)] at hq
    rw [heq] at hq
    simp at hq
  · next a l heq =>
    rw [← mem_sortFinset (s := primes)]
    rw [heq]
    exact foldl_best_mem remaining l a

theorem pickBest_score_ge {primes : Finset Term} (remaining : Finset Term)
    {p : Term} (hp : p ∈ primes) :
    score remaining p ≤ score remaining (pickBest primes remaining) := by
  rw [pickBest]
  split
  · next heq =>
    rw [← mem_sortFinset (s := primes), heq] at hp
    simp at hp
  · next a l heq =>
    rw [← mem_sortFinset (s := primes), heq] at hp
    exact foldl_best_le remaining l a p hp

theorem greedyAux_subset (primes : Finset Term) :
    ∀ (fuel : Nat) (chosen remaining : Finset Term),
      chosen ⊆ greedyAux primes fuel chosen remaining := by
  intro fuel
  induction fuel with
  | zero => intro chosen remaining; rw [greedyAux]
  | succ fuel ih =>
    intro chosen remaining
    rw [greedyAux]
    by_cases he : remaining = ∅
    · rw [if_pos he]
    · rw [if_neg he]
      exact Finset.Subset.trans (Finset.subset_insert _ _) (ih _ _)

theorem greedyAux_covers (primes : Finset Term) :
    ∀ (fuel : Nat) (chosen remaining : Finset Term),
      remaining.card < fuel →
      (∀ m ∈ remaining, ∃ p ∈ primes, covers p m) →
      (greedyAux primes fuel chosen remaining ⊆ chosen ∪ primes) ∧
      (∀ m ∈ remaining, ∃ c ∈ greedyAux primes fuel chosen remaining, covers c m) := by
  intro fuel
  induction fuel with
  | zero => intro chosen remaining hcard; omega
  | succ fuel ih =>
    intro chosen remaining hcard hcov
    rw [greedyAux]
    by_cases he : remaining = ∅
    · rw [if_pos he]
      subst he
      exact ⟨Finset.subset_union_left, by simp⟩
    · rw [if_neg he]
      obtain ⟨m₀, hm₀⟩ := Finset.nonempty_iff_ne_empty.mpr he
      obtain ⟨p₀, hp₀, hcov₀⟩ := hcov m₀ hm₀
      have hprimes : primes.Nonempty := ⟨p₀, hp₀⟩
      set best := pickBest primes remaining with hbest
      have hbestmem : best ∈ primes := pickBest_mem remaining hprimes
      have hscore₀ : 0 < score remaining p₀ :=
        Finset.card_pos.mpr ⟨m₀, Finset.mem_filter.mpr ⟨hm₀, hcov₀⟩⟩
      have hscoreb : 0 < score remaining best :=
        lt_of_lt_of_le hscore₀ (pickBest_score_ge remaining hp₀)
      obtain ⟨m₁, hm₁⟩ := Finset.card_pos.mp hscoreb
      rcases Finset.mem_filter.mp hm₁ with ⟨hm₁r, hm₁c⟩
      set rem' := remaining.filter (fun m => ¬ covers best m) with hrem'
      have hss : rem' ⊂ remaining := by
        rw [Finset.ssubset_iff_of_subset (Finset.filter_subset _ _)]
        refine ⟨m₁, hm₁r, ?_⟩
        intro hmem
        exact (Finset.mem_filter.mp hmem).2 hm₁c
      have hcard' : rem'.card < fuel :=
        lt_of_lt_of_le (Finset.card_lt_card hss) (by omega)
      have hcov' : ∀ m ∈ rem', ∃ p ∈ primes, covers p m := fun m hm =>
        hcov m (Finset.filter_subset _ _ hm)
      obtain ⟨hsub, hc⟩ := ih (insert best chosen) rem' hcard' hcov'
      constructor
      · refine Finset.Subset.trans hsub ?_
        intro x hx
        rcases Finset.mem_union.mp hx with hx | hx
        · rcases Finset.mem_insert.mp hx with hx | hx
          · exact Finset.mem_union_right _ (hx ▸ hbestmem)
          · exact Finset.mem_union_left _ hx
        · exact Finset.mem_union_right _ hx
      · intro m hm
        by_cases hbm : covers best m
        · exact ⟨best, greedyAux_subset primes fuel _ _
            (Finset.mem_insert_self _ _), hbm⟩
        · exact hc m (Finset.mem_filter.mpr ⟨hm, hbm⟩)

/-! ### Consequences for the prime implicant set -/

theorem covers_eq_of_nodash :
    ∀ {a b : Term}, covers a b → a.length = b.length →
      (∀ c ∈ a, c = '0' ∨ c = '1') → a = b := by
  intro a
  induction a with
  | nil =>
    intro b _ hlen _
    cases b with
    | nil => rfl
    | cons y b => simp at hlen
  | cons x a ih =>
    intro b hcov hlen hch
    cases b with
    | nil => simp at hlen
    | cons y b =>
      rcases covers_cons.mp hcov with ⟨hx, htail⟩
      have hxd : ¬ x = '-' := by
        rcases hch x (by simp) with h | h <;> subst h <;> decide
      rcases hx with hx | hx
      · exact absurd hx hxd
      · rw [hx, ih htail (by simpa using hlen) (fun c hc => hch c (by simp [hc]))]

theorem initialTerms_length {w : Nat} {all : List Nat}
    (h : ∀ n ∈ all, n < 2 ^ w) :
    ∀ t ∈ initialTerms w all, t.length = max w 1 := by
  intro t ht
  rcases mem_initialTerms.mp ht with ⟨n, hn, rfl⟩
  exact toBinary_length (h n hn)

theorem prime_implicants_eq (w : Nat) (M D : List Nat) :
    prime_implicants w M D =
      primesAux (w + 1 + 1) (initialTerms w (M ++ D)) ∅ :=
  rfl

/-- Every initial term (hence every required minterm encoding) is covered
by some prime implicant, for in-range inputs. -/
theorem prime_implicants_covers {w : Nat} {M D : List Nat}
    (h : ∀ n ∈ M ++ D, n < 2 ^ w) :
    ∀ t ∈ initialTerms w (M ++ D),
      ∃ p ∈ prime_implicants w M D, covers p t := by
  intro t ht
  rw [prime_implicants_eq]
  obtain ⟨p, hp, hcov, _⟩ :=
    primesAux_covers (max w 1) (w + 1) (initialTerms w (M ++ D)) ∅
      (merge_loop_terminates h) (initialTerms_length h) t ht
  exact ⟨p, hp, hcov⟩

/-- Structural invariant of every prime implicant: fixed width, valid
characters, and every fully-specified minterm it covers is one of the
input indices. -/
theorem prime_implicants_inv {w : Nat} {M D : List Nat}
    (h : ∀ n ∈ M ++ D, n < 2 ^ w) :
    ∀ p ∈ prime_implicants w M D,
      p.length = max w 1 ∧ (∀ c ∈ p, termChar c) ∧
      ∀ n, n < 2 ^ w → covers p (toBinary w n) → n ∈ M ++ D := by
  rw [prime_implicants_eq]
  refine primesAux_inv
    (fun t => t.length = max w 1 ∧ (∀ c ∈ t, termChar c) ∧
      ∀ n, n < 2 ^ w → covers t (toBinary w n) → n ∈ M ++ D)
    ?_ _ _ _ ?_ ?_
  · rintro t1 t2 ⟨hl1, hc1, hs1⟩ ⟨hl2, hc2, hs2⟩ _ hd
    refine ⟨?_, combine_chars hc1, ?_⟩
    · rw [combine_length, hl1, hl2, Nat.min_self]
    · intro n hn hcov
      rcases covers_combine_elim (hl1.trans hl2.symm) hd hc1 hc2
        (toBinary_chars w n) hcov with hcv | hcv
      · exact hs1 n hn hcv
      · exact hs2 n hn hcv
  · intro t ht
    rcases mem_initialTerms.mp ht with ⟨m, hm, rfl⟩
    refine ⟨toBinary_length (h m hm), ?_, ?_⟩
    · intro c hc
      rcases toBinary_chars w m c hc with h' | h' <;> simp [termChar, h']
    · intro n hn hcov
      have heq : toBinary w m = toBinary w n :=
        covers_eq_of_nodash hcov
          (by rw [toBinary_length (h m hm), toBinary_length hn])
          (toBinary_chars w m)
      rwa [← toBinary_injective heq]
  · intro p hp
    simp at hp

/-! ### The simplify pipeline -/

theorem range_all {w : Nat} {M D : List Nat} (hM : ∀ n ∈ M, n < 2 ^ w)
    (hD : ∀ n ∈ D, n < 2 ^ w) : ∀ n ∈ M ++ D, n < 2 ^ w := by
  intro n hn
  rcases List.mem_append.mp hn with h | h
  · exact hM n h
  · exact hD n h

theorem simplify_eq (w : Nat) (M D : List Nat) :
    simplify w M D = sortFinset (greedyAux (prime_implicants w M D)
      ((remainingAfterEssentials (prime_implicants w M D)
        (minterms_to_binary w M)).card + 1)
      (essentialsSet (prime_implicants w M D) (minterms_to_binary w M))
      (remainingAfterEssentials (prime_implicants w M D)
        (minterms_to_binary w M))) :=
  rfl

theorem remaining_covered {w : Nat} {M D : List Nat}
    (hM : ∀ n ∈ M, n < 2 ^ w) (hD : ∀ n ∈ D, n < 2 ^ w) :
    ∀ b ∈ remainingAfterEssentials (prime_implicants w M D)
        (minterms_to_binary w M),
      ∃ p ∈ prime_implicants w M D, covers p b := by
  intro b hb
  have hb' := (Finset.mem_filter.mp hb).1
  rw [List.mem_toFinset] at hb'
  rcases List.mem_map.mp hb' with ⟨m, hm, rfl⟩
  exact prime_implicants_covers (range_all hM hD) _
    (mem_initialTerms.mpr ⟨m, List.mem_append_left D hm, rfl⟩)

/-! ### The claims -/

/-- C1: soundness of the cover.  For every input whose minterm and
dont-care indices all lie below 2 to the num_variables and whose two index
lists are disjoint, every input minterm is matched, via covers, by at
least one term of the final simplified_terms list produced by simplify. -/
theorem simplify_sound {w : Nat} {M D : List Nat}
    (hM : ∀ n ∈ M, n < 2 ^ w) (hD : ∀ n ∈ D, n < 2 ^ w)
    (hdisj : ∀ n ∈ M, n ∉ D) :
    ∀ m ∈ M, ∃ t ∈ simplify w M D, covers t (toBinary w m) := by
  intro m hm
  rw [simplify_eq]
  set primes := prime_implicants w M D with hprimes
  set bins := minterms_to_binary w M with hbins
  set ess := essentialsSet primes bins with hess
  set rem := remainingAfterEssentials primes bins with hrem
  have hcovrem : ∀ b ∈ rem, ∃ p ∈ primes, covers p b :=
    remaining_covered hM hD
  obtain ⟨hsub, hcov⟩ :=
    greedyAux_covers primes (rem.card + 1) ess rem (Nat.lt_succ_self _) hcovrem
  by_cases hecov : ∃ p ∈ ess, covers p (toBinary w m)
  · obtain ⟨p, hp, hpc⟩ := hecov
    exact ⟨p, mem_sortFinset.mpr (greedyAux_subset primes _ ess rem hp), hpc⟩
  · have hbrem : toBinary w m ∈ rem := by
      rw [hrem, remainingAfterEssentials]
      refine Finset.mem_filter.mpr ⟨?_, ?_⟩
      · exact List.mem_toFinset.mpr (List.mem_map.mpr ⟨m, hm, rfl⟩)
      · exact hecov
    obtain ⟨c, hc, hcc⟩ := hcov _ hbrem
    exact ⟨c, mem_sortFinset.mpr hc, hcc⟩

/-- Witness for C1 at num_variables 2, minterms 0 and 1, no dont-cares. -/
theorem simplify_sound_witness :
    (∀ n ∈ [0, 1], n < 2 ^ 2) ∧ (∀ n ∈ ([] : List Nat), n < 2 ^ 2) ∧
    (∀ n ∈ [0, 1], n ∉ ([] : List Nat)) ∧
    ∀ m ∈ [0, 1], ∃ t ∈ simplify 2 [0, 1] [], covers t (toBinary 2 m) :=
  ⟨by decide, by decide, by decide,
    simplify_sound (by decide) (by decide) (by decide)⟩

/-- C2: non-overreach.  For every valid input, a term of the simplify
output covers no fully-specified minterm index outside the union of the
input minterms and dont-cares. -/
theorem simplify_no_overreach {w : Nat} {M D : List Nat}
    (hM : ∀ n ∈ M, n < 2 ^ w) (hD : ∀ n ∈ D, n < 2 ^ w)
    (hdisj : ∀ n ∈ M, n ∉ D) :
    ∀ t ∈ simplify w M D, ∀ n, n < 2 ^ w → covers t (toBinary w n) →
      n ∈ M ∨ n ∈ D := by
  intro t ht n hn hcov
  rw [simplify_eq, mem_sortFinset] at ht
  set primes := prime_implicants w M D with hprimes
  set bins := minterms_to_binary w M with hbins
  set ess := essentialsSet primes bins with hess
  set rem := remainingAfterEssentials primes bins with hrem
  obtain ⟨hsub, _⟩ :=
    greedyAux_covers primes (rem.card + 1) ess rem (Nat.lt_succ_self _)
      (remaining_covered hM hD)
  have htp : t ∈ primes := by
    rcases Finset.mem_union.mp (hsub ht) with h | h
    · exact Finset.filter_subset _ _ h
    · exact h
  exact List.mem_append.mp
    ((prime_implicants_inv (range_all hM hD) t htp).2.2 n hn hcov)

/-- Witness for C2 at num_variables 2, minterms 0 and 1, no dont-cares. -/
theorem simplify_no_overreach_witness :
    (∀ n ∈ [0, 1], n < 2 ^ 2) ∧ (∀ n ∈ ([] : List Nat), n < 2 ^ 2) ∧
    (∀ n ∈ [0, 1], n ∉ ([] : List Nat)) ∧
    ∀ t ∈ simplify 2 [0, 1] [], ∀ n, n < 2 ^ 2 → covers t (toBinary 2 n) →
      n ∈ [0, 1] ∨ n ∈ ([] : List Nat) :=
  ⟨by decide, by decide, by decide,
    simplify_no_overreach (by decide) (by decide) (by decide)⟩

/-- C3 counterexample: with num_variables 1 and minterms 0 and 1, after
width = 1 replacement rounds the working set still holds the all-wildcard
term, so the merging loop executes more than width rounds. -/
theorem merge_rounds_cex :
    (∀ n ∈ ([0, 1] : List Nat), n < 2 ^ 1) ∧
    combinedSet^[1] (initialTerms 1 ([0, 1] ++ [])) ≠ ∅ := by
  constructor
  · decide
  · decide

/-- C3 amended: for every input whose indices fit in num_variables bits
the merging loop terminates after at most width + 1 rounds (the working
set of round k holds only terms with k wildcards, so the set obtained
after width + 1 replacements is empty). -/
theorem merge_rounds_bound {w : Nat} {M D : List Nat}
    (hM : ∀ n ∈ M, n < 2 ^ w) (hD : ∀ n ∈ D, n < 2 ^ w) :
    combinedSet^[w + 1] (initialTerms w (M ++ D)) = ∅ :=
  merge_loop_terminates (range_all hM hD)

/-- Witness for the amended C3 at num_variables 1, minterms 0 and 1. -/
theorem merge_rounds_bound_witness :
    (∀ n ∈ ([0, 1] : List Nat), n < 2 ^ 1) ∧
    combinedSet^[1 + 1] (initialTerms 1 ([0, 1] ++ [])) = ∅ :=
  ⟨by decide, merge_rounds_bound (by decide) (by decide)⟩

/-- C4: for every valid input, every required minterm is covered by at
least one prime implicant, so its coverage-table entry is a non-empty
list and the UncoveredMinterm condition never arises. -/
theorem coverage_lists_nonempty {w : Nat} {M D : List Nat}
    (hM : ∀ n ∈ M, n < 2 ^ w) (hD : ∀ n ∈ D, n < 2 ^ w)
    (hdisj : ∀ n ∈ M, n ∉ D) :
    ∀ m ∈ M, coverers (prime_implicants w M D) (toBinary w m) ≠ ∅ := by
  intro m hm
  obtain ⟨p, hp, hcov⟩ := prime_implicants_covers (range_all hM hD) _
    (mem_initialTerms.mpr ⟨m, List.mem_append_left D hm, rfl⟩)
  exact Finset.ne_empty_of_mem (Finset.mem_filter.mpr ⟨hp, hcov⟩)

/-- Witness for C4 at num_variables 2, minterms 0 and 1, no dont-cares. -/
theorem coverage_lists_nonempty_witness :
    (∀ n ∈ [0, 1], n < 2 ^ 2) ∧ (∀ n ∈ ([] : List Nat), n < 2 ^ 2) ∧
    (∀ n ∈ [0, 1], n ∉ ([] : List Nat)) ∧
    ∀ m ∈ [0, 1], coverers (prime_implicants 2 [0, 1] []) (toBinary 2 m) ≠ ∅ :=
  ⟨by decide, by decide, by decide,
    coverage_lists_nonempty (by decide) (by decide) (by decide)⟩

/-- C6 counterexample: no input validation exists.  With num_variables 1
the index 2 is out of range, yet simplify returns an ordinary cover (the
over-wide term 10) instead of failing before computation begins. -/
theorem no_invalid_input_cex : simplify 1 [2] [] = [['1', '0']] := by decide

/-- C6 amended: the code performs no input validation; out-of-range
indices and overlapping minterm and dont-care lists are processed by the
normal code path (the out-of-range index 2 is encoded as the two-character
term 10 at width 1, and an index listed both as minterm and dont-care is
simply processed once). -/
theorem no_invalid_input :
    simplify 1 [2] [] = [['1', '0']] ∧ simplify 1 [0] [0] = [['0']] ∧
    (['1', '0'] : Term).length ≠ 1 := by
  refine ⟨by decide, by decide, by decide⟩

/-- C7: at num_variables 3 with every index a minterm and no dont-cares,
simplify returns exactly the single all-wildcard term. -/
theorem simplify_const_one :
    simplify 3 [0, 1, 2, 3, 4, 5, 6, 7] [] = [['-', '-', '-']] := by decide

/-- C8: essential prime implicants are never dropped.  For every valid
input, a prime implicant that is the unique coverer of some required
minterm of the initial coverage table is an element of the final
simplified_terms list (the greedy phase only ever adds implicants). -/
theorem essentials_in_simplify {w : Nat} {M D : List Nat}
    (hM : ∀ n ∈ M, n < 2 ^ w) (hD : ∀ n ∈ D, n < 2 ^ w)
    (hdisj : ∀ n ∈ M, n ∉ D) :
    ∀ p ∈ prime_implicants w M D,
      (∃ m ∈ M, coverers (prime_implicants w M D) (toBinary w m) = {p}) →
      p ∈ simplify w M D := by
  rintro p hp ⟨m, hm, hcm⟩
  rw [simplify_eq, mem_sortFinset]
  refine greedyAux_subset _ _ _ _ ?_
  exact Finset.mem_filter.mpr
    ⟨hp, ⟨toBinary w m, List.mem_map.mpr ⟨m, hm, rfl⟩, hcm⟩⟩

/-- Witness for C8: at num_variables 2 with minterms 0 and 1 the implicant
0dash is the unique coverer of minterm 0 and appears in the output. -/
theorem essentials_in_simplify_witness :
    (∀ n ∈ [0, 1], n < 2 ^ 2) ∧ (∀ n ∈ ([] : List Nat), n < 2 ^ 2) ∧
    (∀ n ∈ [0, 1], n ∉ ([] : List Nat)) ∧
    ['0', '-'] ∈ prime_implicants 2 [0, 1] [] ∧
    (∃ m ∈ [0, 1], coverers (prime_implicants 2 [0, 1] []) (toBinary 2 m) =
      {['0', '-']}) ∧
    ['0', '-'] ∈ simplify 2 [0, 1] [] :=
  ⟨by decide, by decide, by decide, by decide, by decide,
    essentials_in_simplify (by decide) (by decide) (by decide)
      ['0', '-'] (by decide) (by decide)⟩

/-- C9: minimizing the constant-zero function is not an error: an empty
minterm list yields an empty simplified_terms list for every
num_variables. -/
theorem simplify_const_zero (w : Nat) : simplify w [] [] = [] := by
  have h2 : prime_implicants w ([] : List Nat) ([] : List Nat) = ∅ := by
    rw [prime_implicants_eq]
    have hinit : initialTerms w ([] ++ []) = ∅ := rfl
    rw [primesAux, hinit, if_pos rfl]
  have h4 : essentialsSet ∅ (minterms_to_binary w []) = ∅ := by
    simp [essentialsSet, minterms_to_binary]
  have h5 : remainingAfterEssentials ∅ (minterms_to_binary w []) = ∅ := by
    simp [remainingAfterEssentials, minterms_to_binary]
  rw [simplify_eq, h2, h4, h5]
  rw [show (∅ : Finset Term).card = 0 from rfl]
  rw [greedyAux]
  rw [if_pos rfl]
  rfl

/-- C10 counterexample: with num_variables 0 the only in-range index 0 is
encoded as the one-character term 0, so the output term length exceeds
num_variables. -/
theorem simplify_width_cex :
    (∀ n ∈ ([0] : List Nat), n < 2 ^ 0) ∧
    ¬ (∀ t ∈ simplify 0 [0] [], t.length = 0) := by
  constructor
  · decide
  · decide

/-- C10 amended: for every valid input with num_variables at least 1,
every string of the final simplified_terms list has length exactly
num_variables and holds only the characters 0, 1 and dash (at
num_variables 0 the encoding of index 0 is the single character 0, of
length 1). -/
theorem simplify_fixed_width {w : Nat} {M D : List Nat}
    (hM : ∀ n ∈ M, n < 2 ^ w) (hD : ∀ n ∈ D, n < 2 ^ w)
    (hdisj : ∀ n ∈ M, n ∉ D) (hw : 1 ≤ w) :
    ∀ t ∈ simplify w M D,
      t.length = w ∧ ∀ c ∈ t, c = '0' ∨ c = '1' ∨ c = '-' := by
  intro t ht
  rw [simplify_eq, mem_sortFinset] at ht
  set primes := prime_implicants w M D with hprimes
  set bins := minterms_to_binary w M with hbins
  set ess := essentialsSet primes bins with hess
  set rem := remainingAfterEssentials primes bins with hrem
  obtain ⟨hsub, _⟩ :=
    greedyAux_covers primes (rem.card + 1) ess rem (Nat.lt_succ_self _)
      (remaining_covered hM hD)
  have htp : t ∈ primes := by
    rcases Finset.mem_union.mp (hsub ht) with h | h
    · exact Finset.filter_subset _ _ h
    · exact h
  obtain ⟨hlen, hch, _⟩ := prime_implicants_inv (range_all hM hD) t htp
  refine ⟨?_, fun c hc => hch c hc⟩
  rw [hlen]
  omega

/-- Witness for the amended C10 at num_variables 2, minterms 0 and 1. -/
theorem simplify_fixed_width_witness :
    (∀ n ∈ [0, 1], n < 2 ^ 2) ∧ (∀ n ∈ ([] : List Nat), n < 2 ^ 2) ∧
    (∀ n ∈ [0, 1], n ∉ ([] : List Nat)) ∧ 1 ≤ 2 ∧
    ∀ t ∈ simplify 2 [0, 1] [],
      t.length = 2 ∧ ∀ c ∈ t, c = '0' ∨ c = '1' ∨ c = '-' :=
  ⟨by decide, by decide, by decide, by decide,
    simplify_fixed_width (by decide) (by decide) (by decide) (by decide)⟩

end QM


